import Mathlib

/-!
# Verification of the pyobjects renderer (salt-contrib)

Shallow embedding of `renderers/pyobjects.py`: the `StateRegistry`,
`State`, `StateRequisite`, `StateExtend` and `StateFactory` classes,
together with theorems about registration, requisite injection and
serialization.

Python dictionaries (the registry's `OrderedDict` sections, a state's
`kwargs`, and the serialized document) are modelled as association lists
`List (String × α)` in insertion order with unique keys; `lget` is key
lookup (first occurrence) and `dictSet` is Python dict assignment
(update the first occurrence in place, else append at the end).
-/

namespace Pyobjects

/-- The fixed closed set of requisite relation keys
(`REQUISITES` in the source). -/
def REQUISITES : List String :=
  ["require", "watch", "use", "require_in", "watch_in", "use_in"]

/-- A `StateRequisite`: a typed dependency edge `relation`/`module`/`id_`.
The Python object also carries a registry reference, used only by its
context-manager methods (`__enter__`/`__exit__`), which we model directly
as `StateRegistry.push_requisite`/`pop_requisite`. -/
structure StateRequisite where
  requisite : String
  module : String
  id_ : String
  deriving Repr, DecidableEq

/-- Python values as they appear in state kwargs and in the serialized
document: strings, numbers, lists, dicts (association lists), and
`StateRequisite` objects. -/
inductive Val where
  | str : String → Val
  | int : Int → Val
  | bool : Bool → Val
  | list : List Val → Val
  | dict : List (String × Val) → Val
  | req : StateRequisite → Val
  deriving Repr

/-- Key lookup in an association list: the value at the first occurrence
of the key (Python `d[k]` / `k in d`). -/
def lget {α : Type} : List (String × α) → String → Option α
  | [], _ => none
  | (k', v) :: rest, k => if k' = k then some v else lget rest k

/-- Python dict assignment `d[k] = v`: replace the value at the first
occurrence of `k` in place, or append `(k, v)` at the end if `k` is
absent (insertion-order semantics of `dict`/`OrderedDict`). -/
def dictSet {α : Type} : List (String × α) → String → α → List (String × α)
  | [], k, v => [(k, v)]
  | (k', v') :: rest, k, v =>
    if k' = k then (k, v) :: rest else (k', v') :: dictSet rest k v

/-- Source `StateRequisite.__call__`: the serialized edge-record
`{self.module: self.id_}`. -/
def StateRequisite.call (q : StateRequisite) : Val :=
  Val.dict [(q.module, Val.str q.id_)]

/-- A `State` (declaration): id, module (namespace), function (operation)
and keyword attributes. The Python object also holds a registry
reference and a `self.requisite`; registration happens in
`State.__init__`, modelled by `State.register` below. -/
structure State where
  id_ : String
  module : String
  func : String
  kwargs : List (String × Val)
  deriving Repr

/-- A `StateExtend`: marker wrapping an id that belongs to the extend
section. -/
structure StateExtend where
  name : String
  deriving Repr, DecidableEq

/-- The errors the renderer core can raise: `DuplicateState` and
`InvalidFunction` (both `StateException` subclasses in the source), and
Python's own `AttributeError`, raised by `StateRegistry.add` when it
calls `.append` on an author-supplied non-list requisite value. -/
inductive PyError where
  | duplicateState : String → PyError
  | invalidFunction : String → String → PyError
  | attributeError : PyError
  deriving Repr, DecidableEq

/-- The `StateRegistry`: ordered declaration sections `states` and
`extends`, the `includes` list, and the `requisites` scope stack
(pushed at the end, iterated oldest-first). -/
structure StateRegistry where
  states : List (String × State)
  requisites : List StateRequisite
  includes : List String
  extends_ : List (String × State)
  deriving Repr

/-- Source `StateRegistry.empty()` / the state of a freshly constructed
registry: every field cleared. -/
def StateRegistry.empty : StateRegistry :=
  { states := [], requisites := [], includes := [], extends_ := [] }

/-- Source `StateRegistry.include(*args)`: append the names in call order. -/
def StateRegistry.include_ (r : StateRegistry) (args : List String) : StateRegistry :=
  { r with includes := r.includes ++ args }

/-- Source `StateRegistry.push_requisite`. -/
def StateRegistry.push_requisite (r : StateRegistry) (q : StateRequisite) : StateRegistry :=
  { r with requisites := r.requisites ++ [q] }

/-- Source `StateRegistry.pop_requisite`: `del self.requisites[-1]` (on an empty
stack Python raises `IndexError`; the claims never pop an empty stack,
and we model the non-empty behaviour). -/
def StateRegistry.pop_requisite (r : StateRegistry) : StateRegistry :=
  { r with requisites := r.requisites.dropLast }

/-- One iteration of the injection loop in `StateRegistry.add` for a
single active requisite `q`:
`if q.requisite not in kwargs: kwargs[q.requisite] = []` followed by
`kwargs[q.requisite].append(q())`. The `.append` call only succeeds on a
list; on any other value Python raises `AttributeError`, in which case
the kwargs mutated so far are returned alongside the error. -/
def injectOne (q : StateRequisite) (kw : List (String × Val)) :
    Option PyError × List (String × Val) :=
  let kw1 := if (lget kw q.requisite).isNone
    then dictSet kw q.requisite (Val.list []) else kw
  match lget kw1 q.requisite with
  | some (Val.list l) =>
      (none, dictSet kw1 q.requisite (Val.list (l ++ [q.call])))
  | _ => (some PyError.attributeError, kw1)

/-- The whole injection loop `for req in self.requisites: ...` of
`StateRegistry.add`, oldest scope first. -/
def injectAll : List StateRequisite → List (String × Val) →
    Option PyError × List (String × Val)
  | [], kw => (none, kw)
  | q :: qs, kw =>
    match injectOne q kw with
    | (none, kw') => injectAll qs kw'
    | (some e, kw') => (some e, kw')

/-- Source `StateRegistry.add(id_, state, extend=False)`: pick the target
section, raise `DuplicateState` if `id_` is already present (before any
mutation), otherwise inject the active requisites into the state's
kwargs and store the state under `id_`. Returns the raised error (if
any) together with the registry and the offered state as they stand
after the call. The source guards the injection loop with
`if len(self.requisites) > 0`; that guard is a no-op (the `for` loop
over an empty stack does nothing, and `injectAll [] kw = (none, kw)`),
so it is dropped here. -/
def StateRegistry.add (r : StateRegistry) (id_ : String) (s : State)
    (ext : Bool) : Option PyError × StateRegistry × State :=
  let attr := if ext then r.extends_ else r.states
  if (lget attr id_).isSome then
    (some (PyError.duplicateState id_), r, s)
  else
    match injectAll r.requisites s.kwargs with
    | (some e, kw') => (some e, r, { s with kwargs := kw' })
    | (none, kw') =>
      let s' := { s with kwargs := kw' }
      let attr' := dictSet attr id_ s'
      (none,
       if ext then { r with extends_ := attr' } else { r with states := attr' },
       s')

/-- Source `StateRegistry.extend(id_, state)`. -/
def StateRegistry.extend_ (r : StateRegistry) (id_ : String) (s : State) :
    Option PyError × StateRegistry × State :=
  r.add id_ s true

/-- Source `StateRegistry.make_extend(name)`. -/
def StateRegistry.make_extend (_r : StateRegistry) (name : String) : StateExtend :=
  StateExtend.mk name

/-- Element-level normalization in `State.attrs`:
`req() if isinstance(req, StateRequisite) else req`. -/
def normElem : Val → Val
  | Val.req q => q.call
  | v => v

/-- Value-level normalization in `State.attrs` for one relation key:
wrap a non-list value into a one-element list, then serialize every
`StateRequisite` element. -/
def normReqVal (v : Val) : Val :=
  Val.list ((match v with | Val.list l => l | v => [v]).map normElem)

/-- One pass of the requisite-normalization loop in `State.attrs` for a
single relation key `attr`: if present, replace the stored value by its
normalization. -/
def normalizeOne (kw : List (String × Val)) (attr : String) : List (String × Val) :=
  match lget kw attr with
  | none => kw
  | some v => dictSet kw attr (normReqVal v)

/-- Source `State.attrs`: normalize every relation key, then return one
single-key mapping per attribute, sorted by attribute key ascending
(`sorted(kwargs.iterkeys())`). Each pair `(k, v)` stands for the Python
dict `{k: v}`. -/
def State.attrs (s : State) : List (String × Val) :=
  let kwargs := REQUISITES.foldl normalizeOne s.kwargs
  ((kwargs.map Prod.fst).insertionSort (· ≤ ·)).filterMap
    (fun k => (lget kwargs k).map (fun v => (k, v)))

/-- Source `State.full_func`: `"<module>.<func>"`. -/
def State.full_func (s : State) : String :=
  s.module ++ "." ++ s.func

/-- Source `State.__call__`: `{self.full_func: self.attrs}`. -/
def State.call (s : State) : Val :=
  Val.dict [(s.full_func, Val.list (s.attrs.map fun p => Val.dict [p]))]

/-- Source `StateRegistry.salt_data()`: serialize the normal section in
insertion order, add the `include` and `extend` keys when non-empty
(plain dict assignment, so a declaration registered under either
literal id is overwritten), then reset the registry (`self.empty()`).
Returns the document together with the reset registry. -/
def StateRegistry.salt_data (r : StateRegistry) :
    List (String × Val) × StateRegistry :=
  let states := r.states.map fun p => (p.1, p.2.call)
  let states := if r.includes.isEmpty then states
    else dictSet states "include" (Val.list (r.includes.map Val.str))
  let states := if r.extends_.isEmpty then states
    else dictSet states "extend"
      (Val.dict (r.extends_.map fun p => (p.1, p.2.call)))
  (states, StateRegistry.empty)

/-- The id argument of `State.__init__`: either a plain string or a
`StateExtend` marker. -/
inductive StateId where
  | plain : String → StateId
  | ext : StateExtend → StateId
  deriving Repr

/-- The registration performed by `State.__init__(id_, module, func,
registry, **kwargs)`: if `id_` is a `StateExtend`, register into the
extend section under `id_.name` and the state's own id becomes that
unwrapped name; otherwise register into the normal section under
`id_`. -/
def State.register (id_ : StateId) (module func : String)
    (kwargs : List (String × Val)) (r : StateRegistry) :
    Option PyError × StateRegistry × State :=
  match id_ with
  | StateId.ext m =>
    let s : State := { id_ := m.name, module := module, func := func, kwargs := kwargs }
    r.extend_ m.name s
  | StateId.plain i =>
    let s : State := { id_ := i, module := module, func := func, kwargs := kwargs }
    r.add i s false

/-- A `StateFactory` for one salt module: its name and the
`valid_funcs` whitelist (empty means no restriction). The registry
reference is passed explicitly to the operations below. -/
structure StateFactory where
  module : String
  valid_funcs : List String
  deriving Repr

/-- The whitelist check at the top of `StateFactory.__getattr__`:
raises `InvalidFunction` when `valid_funcs` is non-empty and `func` is
not a member. -/
def StateFactory.getattr_check (f : StateFactory) (func : String) : Option PyError :=
  if f.valid_funcs.length > 0 ∧ func ∉ f.valid_funcs then
    some (PyError.invalidFunction func f.module)
  else
    none

/-- Attribute-style invocation `factory.<func>(id_, **kwargs)`:
`__getattr__` validates `func` against the whitelist and returns
`make_state`, which constructs (and thereby registers) a `State` bound
to the factory's module. On an error no state is returned. -/
def StateFactory.callFunc (f : StateFactory) (func : String) (id_ : StateId)
    (kwargs : List (String × Val)) (r : StateRegistry) :
    Option PyError × StateRegistry × Option State :=
  match f.getattr_check func with
  | some e => (some e, r, none)
  | none =>
    match State.register id_ f.module func kwargs r with
    | (none, r', s) => (none, r', some s)
    | (some e, r', _) => (some e, r', none)

/-- Direct invocation `factory(id_, requisite='require')`: produce a
`StateRequisite` in this factory's module; the registry's declaration
maps are untouched. -/
def StateFactory.call (f : StateFactory) (id_ : String)
    (requisite : String := "require") : StateRequisite :=
  { requisite := requisite, module := f.module, id_ := id_ }

/-- Sequential registration of a batch of declarations, each under its
own id into one section (as repeated `State.__init__` calls do),
stopping at the first error. -/
def registerAll (ext : Bool) : StateRegistry → List State →
    Option PyError × StateRegistry
  | r, [] => (none, r)
  | r, s :: rest =>
    match r.add s.id_ s ext with
    | (none, r', _) => registerAll ext r' rest
    | (some e, r', _) => (some e, r')

/-- The author-supplied list already stored under key `k` (empty when
the key is absent). -/
def authorList (kw : List (String × Val)) (k : String) : List Val :=
  match lget kw k with
  | some (Val.list l) => l
  | _ => []

/-- The edge-records injected for relation key `k` by the active-scope
stack `qs`, in stack order (oldest scope first). -/
def injectedEdges (qs : List StateRequisite) (k : String) : List Val :=
  (qs.filter fun q => q.requisite == k).map StateRequisite.call

/-! ## Concrete fixtures used by the witness theorems -/

/-- A scope requisite `require` → `file:/etc/a`. -/
def scopeQ1 : StateRequisite :=
  { requisite := "require", module := "file", id_ := "/etc/a" }

/-- A scope requisite `watch` → `service:/etc/b`. -/
def scopeQ2 : StateRequisite :=
  { requisite := "watch", module := "service", id_ := "/etc/b" }

/-- A registry with two active scopes and nothing registered. -/
def scopedReg : StateRegistry :=
  { states := [], requisites := [scopeQ1, scopeQ2], includes := [], extends_ := [] }

/-- Author-supplied kwargs carrying an explicit `require` list. -/
def authorKw : List (String × Val) :=
  [("require", Val.list [Val.dict [("pkg", Val.str "vim")]])]

/-- A fresh declaration `file.managed` with id `"x"`. -/
def stateX : State :=
  { id_ := "x", module := "file", func := "managed", kwargs := authorKw }

/-- A declaration `file.managed` with id `"a"` and no attributes. -/
def stateA : State :=
  { id_ := "a", module := "file", func := "managed", kwargs := [] }

/-- A second declaration offered under the already-taken id `"a"`. -/
def stateA2 : State :=
  { id_ := "a", module := "cmd", func := "run", kwargs := [] }

/-- A registry whose normal section already holds `"a"`. -/
def regWithA : StateRegistry :=
  { states := [("a", stateA)], requisites := [], includes := [], extends_ := [] }

/-- Two plain attributes, inserted in non-alphabetical order. -/
def kwOG : List (String × Val) :=
  [("owner", Val.str "root"), ("group", Val.str "wheel")]

/-- The same two attributes in the opposite insertion order. -/
def kwGO : List (String × Val) :=
  [("group", Val.str "wheel"), ("owner", Val.str "root")]

/-- A declaration with the attributes of `kwOG` plus a single (unwrapped)
requisite value under `require`. -/
def stateY : State :=
  { id_ := "y", module := "file", func := "managed",
    kwargs := ("require", Val.req scopeQ1) :: kwOG }

/-- A declaration whose attributes are exactly `kwOG`. -/
def stateZ : State :=
  { id_ := "z", module := "file", func := "managed", kwargs := kwOG }

/-- A factory for the `file` module restricted to `managed`. -/
def fileFactory : StateFactory :=
  { module := "file", valid_funcs := ["managed"] }

/-- An extend marker for the id `"apache"`. -/
def extM : StateExtend := { name := "apache" }

/-- A registry exercising the reserved document keys: a declaration
registered under the literal id `"include"`, a non-empty include list
and a non-empty extend section. -/
def regFull : StateRegistry :=
  { states := [("include", stateA)], requisites := [],
    includes := ["other.sls"], extends_ := [("e", stateA2)] }

/-! ## Lemmas about `lget` and `dictSet` -/

theorem lget_dictSet_self {α : Type} (kw : List (String × α)) (k : String) (v : α) :
    lget (dictSet kw k v) k = some v := by
  induction kw with
  | nil => simp [dictSet, lget]
  | cons p rest ih =>
    obtain ⟨k', v'⟩ := p
    by_cases h : k' = k
    · simp [dictSet, lget, h]
    · simp [dictSet, lget, h, ih]

theorem lget_dictSet_ne {α : Type} (kw : List (String × α)) {k k' : String} (v : α)
    (h : k' ≠ k) : lget (dictSet kw k v) k' = lget kw k' := by
  induction kw with
  | nil => simp [dictSet, lget, Ne.symm h]
  | cons p rest ih =>
    obtain ⟨k₁, v₁⟩ := p
    by_cases h1 : k₁ = k
    · subst h1
      simp [dictSet, lget, Ne.symm h]
    · by_cases h2 : k₁ = k'
      · simp [dictSet, lget, h1, h2, h]
      · simp [dictSet, lget, h1, h2, ih]

theorem keys_dictSet {α : Type} (kw : List (String × α)) (k : String) (v : α)
    (h : (lget kw k).isSome) :
    (dictSet kw k v).map Prod.fst = kw.map Prod.fst := by
  induction kw with
  | nil => simp [lget] at h
  | cons p rest ih =>
    obtain ⟨k₁, v₁⟩ := p
    by_cases h1 : k₁ = k
    · simp [dictSet, h1]
    · simp only [lget, h1, if_false] at h
      simp [dictSet, h1, ih h]

theorem dictSet_absent {α : Type} (kw : List (String × α)) (k : String) (v : α)
    (h : lget kw k = none) :
    dictSet kw k v = kw ++ [(k, v)] := by
  induction kw with
  | nil => simp [dictSet]
  | cons p rest ih =>
    obtain ⟨k₁, v₁⟩ := p
    by_cases h1 : k₁ = k
    · simp [lget, h1] at h
    · simp only [lget, h1, if_false] at h
      simp [dictSet, h1, ih h]

theorem lget_append_of_none {α : Type} {kw1 : List (String × α)}
    (kw2 : List (String × α)) {k : String} (h : lget kw1 k = none) :
    lget (kw1 ++ kw2) k = lget kw2 k := by
  induction kw1 with
  | nil => simp
  | cons p rest ih =>
    obtain ⟨k₁, v₁⟩ := p
    by_cases h1 : k₁ = k
    · simp [lget, h1] at h
    · simp only [lget, h1, if_false] at h
      simp [lget, h1, ih h]

theorem lget_isSome_iff {α : Type} (kw : List (String × α)) (k : String) :
    (lget kw k).isSome ↔ k ∈ kw.map Prod.fst := by
  induction kw with
  | nil => simp [lget]
  | cons p rest ih =>
    obtain ⟨k₁, v₁⟩ := p
    by_cases h1 : k₁ = k
    · simp [lget, h1]
    · simp [lget, h1, ih, Ne.symm h1]

theorem lget_eq_none_iff {α : Type} (kw : List (String × α)) (k : String) :
    lget kw k = none ↔ k ∉ kw.map Prod.fst := by
  rw [← lget_isSome_iff, Option.isSome_iff_ne_none]
  tauto

theorem lget_eq_some_of_mem {α : Type} {kw : List (String × α)} {k : String} {v : α}
    (hnd : (kw.map Prod.fst).Nodup) (h : (k, v) ∈ kw) :
    lget kw k = some v := by
  induction kw with
  | nil => simp at h
  | cons p rest ih =>
    obtain ⟨k₁, v₁⟩ := p
    simp only [List.map_cons, List.nodup_cons] at hnd
    rcases List.mem_cons.mp h with h | h
    · cases h
      simp [lget]
    · have hk : k₁ ≠ k := by
        intro he
        exact hnd.1 (he ▸ (List.mem_map.mpr ⟨(k, v), h, rfl⟩))
      simp [lget, hk, ih hnd.2 h]

theorem mem_of_lget_eq_some {α : Type} {kw : List (String × α)} {k : String} {v : α}
    (h : lget kw k = some v) : (k, v) ∈ kw := by
  induction kw with
  | nil => simp [lget] at h
  | cons p rest ih =>
    obtain ⟨k₁, v₁⟩ := p
    by_cases h1 : k₁ = k
    · subst h1
      have hv : v₁ = v := by simpa [lget] using h
      subst hv
      exact List.mem_cons_self _ _
    · simp only [lget, h1, if_false] at h
      simp [ih h]

/-- Under unique keys, lookup is invariant under permutation of the
association list. -/
theorem lget_eq_of_perm {α : Type} {kw1 kw2 : List (String × α)}
    (hp : kw1.Perm kw2) (hnd : (kw1.map Prod.fst).Nodup) (k : String) :
    lget kw1 k = lget kw2 k := by
  have hnd2 : (kw2.map Prod.fst).Nodup := ((hp.map Prod.fst).nodup_iff).mp hnd
  cases h : lget kw1 k with
  | none =>
    rw [lget_eq_none_iff] at h
    symm
    rw [lget_eq_none_iff]
    exact fun hm => h ((hp.map Prod.fst).mem_iff.mpr hm)
  | some v =>
    exact (lget_eq_some_of_mem hnd2 (hp.mem_iff.mp (mem_of_lget_eq_some h))).symm

/-! ## Requisite injection -/

theorem injectOne_spec (q : StateRequisite) (kw : List (String × Val))
    (h : lget kw q.requisite = none ∨
         ∃ l, lget kw q.requisite = some (Val.list l)) :
    (injectOne q kw).1 = none ∧
    ∀ k, lget (injectOne q kw).2 k =
      if k = q.requisite
      then some (Val.list (authorList kw q.requisite ++ [q.call]))
      else lget kw k := by
  rcases h with h | ⟨l, h⟩
  · have h1 : injectOne q kw =
        (none, dictSet (dictSet kw q.requisite (Val.list [])) q.requisite
          (Val.list ([] ++ [q.call]))) := by
      simp [injectOne, h, lget_dictSet_self]
    rw [h1]
    refine ⟨rfl, fun k => ?_⟩
    by_cases hk : k = q.requisite
    · subst hk
      simp [lget_dictSet_self, authorList, h]
    · rw [lget_dictSet_ne _ _ hk, lget_dictSet_ne _ _ hk, if_neg hk]
  · have h1 : injectOne q kw =
        (none, dictSet kw q.requisite (Val.list (l ++ [q.call]))) := by
      simp [injectOne, h]
    rw [h1]
    refine ⟨rfl, fun k => ?_⟩
    by_cases hk : k = q.requisite
    · subst hk
      simp [lget_dictSet_self, authorList, h]
    · rw [lget_dictSet_ne _ _ hk, if_neg hk]

theorem injectedEdges_nil (qs : List StateRequisite) (k : String)
    (h : k ∉ qs.map StateRequisite.requisite) : injectedEdges qs k = [] := by
  unfold injectedEdges
  rw [List.filter_eq_nil_iff.mpr, List.map_nil]
  intro q hq
  simp only [beq_iff_eq]
  intro he
  exact h (List.mem_map.mpr ⟨q, hq, he⟩)

theorem injectedEdges_cons (q : StateRequisite) (qs : List StateRequisite)
    (k : String) :
    injectedEdges (q :: qs) k =
      (if q.requisite = k then [q.call] else []) ++ injectedEdges qs k := by
  unfold injectedEdges
  by_cases h : q.requisite = k <;> simp [List.filter_cons, h]

/-- The full effect of the injection loop of `StateRegistry.add`: when
every active requisite's relation key currently holds a list (or is
absent), the loop succeeds and, for each relation key touched by the
stack, appends the edge-records of the matching requisites — in stack
order, oldest first — after the author-supplied values, creating the
list when the key was absent; all other keys are untouched. -/
theorem injectAll_spec (qs : List StateRequisite) (kw : List (String × Val))
    (h : ∀ q ∈ qs, lget kw q.requisite = none ∨
         ∃ l, lget kw q.requisite = some (Val.list l)) :
    (injectAll qs kw).1 = none ∧
    ∀ k, lget (injectAll qs kw).2 k =
      if k ∈ qs.map StateRequisite.requisite
      then some (Val.list (authorList kw k ++ injectedEdges qs k))
      else lget kw k := by
  induction qs generalizing kw with
  | nil => simp [injectAll]
  | cons q qs ih =>
    obtain ⟨h1, h2⟩ := injectOne_spec q kw (h q (List.mem_cons_self _ _))
    set kw2 := (injectOne q kw).2 with hkw2
    have he : injectOne q kw = (none, kw2) := by
      rw [hkw2, ← h1]
    have hstep : injectAll (q :: qs) kw = injectAll qs kw2 := by
      simp only [injectAll, he]
    have hq2 : ∀ q' ∈ qs, lget kw2 q'.requisite = none ∨
        ∃ l, lget kw2 q'.requisite = some (Val.list l) := by
      intro q' hq'
      rw [h2 q'.requisite]
      by_cases hr : q'.requisite = q.requisite
      · rw [if_pos hr]
        exact Or.inr ⟨_, rfl⟩
      · rw [if_neg hr]
        exact h q' (List.mem_cons_of_mem _ hq')
    obtain ⟨ih1, ih2⟩ := ih kw2 hq2
    rw [hstep]
    refine ⟨ih1, fun k => ?_⟩
    rw [ih2 k]
    have hauthor : authorList kw2 k =
        if k = q.requisite then authorList kw k ++ [q.call]
        else authorList kw k := by
      have hl := h2 k
      by_cases hk : k = q.requisite
      · rw [if_pos hk] at hl
        rw [hk] at hl
        rw [if_pos hk, hk]
        simp [authorList, hl]
      · rw [if_neg hk] at hl
        rw [if_neg hk]
        simp [authorList, hl]
    by_cases hk : k = q.requisite
    · by_cases hmem : k ∈ qs.map StateRequisite.requisite
      · rw [if_pos hmem, if_pos (by simp [hk]), hauthor, if_pos hk,
          injectedEdges_cons, if_pos hk.symm]
        simp [List.append_assoc]
      · rw [if_neg hmem, if_pos (by simp [hk]), h2 k, if_pos hk,
          injectedEdges_cons, if_pos hk.symm, injectedEdges_nil qs k hmem, hk]
        simp
    · have hk2 : ¬(q.requisite = k) := fun hh => hk hh.symm
      by_cases hmem : k ∈ qs.map StateRequisite.requisite
      · rw [if_pos hmem, if_pos (by simp [hmem]), hauthor, if_neg hk,
          injectedEdges_cons, if_neg hk2]
        simp
      · rw [if_neg hmem, h2 k, if_neg hk, if_neg (by simp [hk, hmem, hk2])]

theorem injectOne_err (q : StateRequisite) (kw : List (String × Val)) :
    (injectOne q kw).1 = none ∨ (injectOne q kw).1 = some PyError.attributeError := by
  unfold injectOne
  split
  all_goals
    dsimp only
    split
    · exact Or.inl rfl
    · exact Or.inr rfl

theorem injectAll_err (qs : List StateRequisite) (kw : List (String × Val)) :
    (injectAll qs kw).1 = none ∨ (injectAll qs kw).1 = some PyError.attributeError := by
  induction qs generalizing kw with
  | nil => exact Or.inl rfl
  | cons q qs ih =>
    unfold injectAll
    cases hq : injectOne q kw with
    | mk e kw' =>
      cases e with
      | none => exact ih kw'
      | some e =>
        rcases injectOne_err q kw with h | h <;> rw [hq] at h
        · exact Option.noConfusion h
        · simp only [Option.some.injEq] at h
          subst h
          exact Or.inr rfl

/-! ## Unfolding lemmas for `StateRegistry.add` -/

theorem add_of_present (r : StateRegistry) (id_ : String) (s : State) (ext : Bool)
    (h : (lget (if ext then r.extends_ else r.states) id_).isSome) :
    r.add id_ s ext = (some (PyError.duplicateState id_), r, s) := by
  unfold StateRegistry.add
  rw [if_pos h]

theorem add_of_absent_ok (r : StateRegistry) (id_ : String) (s : State) (ext : Bool)
    (kw' : List (String × Val))
    (h : lget (if ext then r.extends_ else r.states) id_ = none)
    (hinj : injectAll r.requisites s.kwargs = (none, kw')) :
    r.add id_ s ext =
      (none,
       if ext then { r with extends_ := dictSet r.extends_ id_ { s with kwargs := kw' } }
       else { r with states := dictSet r.states id_ { s with kwargs := kw' } },
       { s with kwargs := kw' }) := by
  unfold StateRegistry.add
  rw [if_neg (by simp [h]), hinj]
  cases ext <;> simp [h]

theorem add_of_absent_err (r : StateRegistry) (id_ : String) (s : State) (ext : Bool)
    (e : PyError) (kw' : List (String × Val))
    (h : lget (if ext then r.extends_ else r.states) id_ = none)
    (hinj : injectAll r.requisites s.kwargs = (some e, kw')) :
    r.add id_ s ext = (some e, r, { s with kwargs := kw' }) := by
  unfold StateRegistry.add
  rw [if_neg (by simp [h]), hinj]

/-! ## Claim theorems -/

/-- C1: for a declaration registered (under a fresh id) while scopes are
active, each active requisite's serialized edge-record is appended to
the list under that requisite's relation key in the declaration's
kwargs, oldest scope first, with the list created when absent and any
author-supplied values for that relation key kept in front of the
injected edges; all other attribute keys are untouched, and the
resulting declaration is what gets stored in the registry. -/
theorem add_injects_scope_edges (r : StateRegistry) (id_ : String) (s : State)
    (hid : lget r.states id_ = none)
    (hq : ∀ q ∈ r.requisites, lget s.kwargs q.requisite = none ∨
          ∃ l, lget s.kwargs q.requisite = some (Val.list l)) :
    ∃ s' : State,
      (r.add id_ s false).1 = none ∧
      (r.add id_ s false).2.2 = s' ∧
      lget ((r.add id_ s false).2.1).states id_ = some s' ∧
      s'.id_ = s.id_ ∧ s'.module = s.module ∧ s'.func = s.func ∧
      ∀ k, lget s'.kwargs k =
        if k ∈ r.requisites.map StateRequisite.requisite
        then some (Val.list (authorList s.kwargs k ++ injectedEdges r.requisites k))
        else lget s.kwargs k := by
  obtain ⟨h1, h2⟩ := injectAll_spec r.requisites s.kwargs hq
  have hinj : injectAll r.requisites s.kwargs =
      (none, (injectAll r.requisites s.kwargs).2) := by
    rw [← h1]
  have hadd := add_of_absent_ok r id_ s false _ (by simpa using hid) hinj
  refine ⟨{ s with kwargs := (injectAll r.requisites s.kwargs).2 }, ?_, ?_, ?_,
    rfl, rfl, rfl, h2⟩
  · rw [hadd]
  · rw [hadd]
  · rw [hadd]
    simp [lget_dictSet_self]

/-- C1 witness: a registry with two active scopes (`require` on
`"/etc/a"`, then `watch` on `"/etc/b"`) injects both edges into a fresh
declaration that already carries an author-supplied `require` list. -/
theorem add_injects_scope_edges_witness :
    (lget scopedReg.states "x" = none) ∧
    (∀ q ∈ scopedReg.requisites,
      lget stateX.kwargs q.requisite = none ∨
      ∃ l, lget stateX.kwargs q.requisite = some (Val.list l)) ∧
    ∃ s' : State,
      (scopedReg.add "x" stateX false).1 = none ∧
      (scopedReg.add "x" stateX false).2.2 = s' ∧
      lget ((scopedReg.add "x" stateX false).2.1).states "x" = some s' ∧
      s'.id_ = stateX.id_ ∧ s'.module = stateX.module ∧ s'.func = stateX.func ∧
      ∀ k, lget s'.kwargs k =
        if k ∈ scopedReg.requisites.map StateRequisite.requisite
        then some (Val.list (authorList stateX.kwargs k ++
          injectedEdges scopedReg.requisites k))
        else lget stateX.kwargs k := by
  have hq : ∀ q ∈ scopedReg.requisites,
      lget stateX.kwargs q.requisite = none ∨
      ∃ l, lget stateX.kwargs q.requisite = some (Val.list l) := by
    intro q hq
    fin_cases hq
    · exact Or.inr ⟨_, rfl⟩
    · exact Or.inl rfl
  exact ⟨rfl, hq, add_injects_scope_edges scopedReg "x" stateX rfl hq⟩

/-- C2: once an id is registered into a section, a second registration
of the same id into that same section fails with the
duplicate-declaration error, while registering that id into the other
section (normal vs extend) raises no error. -/
theorem duplicate_id_section_policy (r : StateRegistry) (id_ : String)
    (s1 s2 s3 : State) (ext : Bool) (r' : StateRegistry) (s1' : State)
    (h1 : r.add id_ s1 ext = (none, r', s1'))
    (h2 : lget (if ext then r'.states else r'.extends_) id_ = none)
    (h3 : (injectAll r'.requisites s3.kwargs).1 = none) :
    (r'.add id_ s2 ext).1 = some (PyError.duplicateState id_) ∧
    (r'.add id_ s3 (!ext)).1 = none := by
  have hpre : ¬(lget (if ext then r.extends_ else r.states) id_).isSome := by
    intro hpre
    rw [add_of_present r id_ s1 ext hpre] at h1
    exact Option.noConfusion (congrArg Prod.fst h1)
  rw [Option.not_isSome_iff_eq_none] at hpre
  obtain ⟨kw1, hinj1⟩ : ∃ kw1, injectAll r.requisites s1.kwargs = (none, kw1) := by
    cases hinj : injectAll r.requisites s1.kwargs with
    | mk e kw =>
      cases e with
      | none => exact ⟨kw, rfl⟩
      | some e =>
        rw [add_of_absent_err r id_ s1 ext e kw hpre hinj] at h1
        exact absurd (congrArg Prod.fst h1) (by simp)
  rw [add_of_absent_ok r id_ s1 ext kw1 hpre hinj1] at h1
  have hr' : r' =
      if ext then { r with extends_ := dictSet r.extends_ id_ { s1 with kwargs := kw1 } }
      else { r with states := dictSet r.states id_ { s1 with kwargs := kw1 } } := by
    have hp := congrArg (fun p => p.2.1) h1
    simpa using hp.symm
  obtain ⟨kw3, hinj3⟩ : ∃ kw3, injectAll r'.requisites s3.kwargs = (none, kw3) := by
    cases hinj : injectAll r'.requisites s3.kwargs with
    | mk e kw =>
      rw [hinj] at h3
      cases e with
      | none => exact ⟨kw, rfl⟩
      | some e => exact Option.noConfusion h3
  subst hr'
  constructor
  · rw [add_of_present _ id_ s2 ext (by cases ext <;> simp [lget_dictSet_self])]
  · rw [add_of_absent_ok _ id_ s3 (!ext) kw3 (by cases ext <;> simpa using h2) hinj3]

/-- C2 witness: `"a"` registered into the normal section; a second
`"a"` into the normal section raises the duplicate error, while `"a"`
into the extend section raises nothing. -/
theorem duplicate_id_section_policy_witness :
    StateRegistry.empty.add "a" stateA false = (none, regWithA, stateA) ∧
    lget regWithA.extends_ "a" = none ∧
    (injectAll regWithA.requisites stateA2.kwargs).1 = none ∧
    (regWithA.add "a" stateA2 false).1 = some (PyError.duplicateState "a") ∧
    (regWithA.add "a" stateA2 (!false)).1 = none :=
  ⟨rfl, rfl, rfl,
    duplicate_id_section_policy StateRegistry.empty "a" stateA stateA2 stateA2
      false regWithA stateA rfl rfl rfl⟩

/-- C9: when `add` raises the duplicate-id error it does so before any
mutation: the registry and the offered declaration are returned exactly
as they were, the error names the offered id, and the id was indeed
already present in the target section. -/
theorem add_duplicate_is_atomic (r : StateRegistry) (id_ : String) (s : State)
    (ext : Bool) (msg : String)
    (h : (r.add id_ s ext).1 = some (PyError.duplicateState msg)) :
    r.add id_ s ext = (some (PyError.duplicateState id_), r, s) ∧
    msg = id_ ∧
    (lget (if ext then r.extends_ else r.states) id_).isSome := by
  by_cases hpre : (lget (if ext then r.extends_ else r.states) id_).isSome
  · refine ⟨add_of_present r id_ s ext hpre, ?_, hpre⟩
    rw [add_of_present r id_ s ext hpre] at h
    simpa using h.symm
  · rw [Option.not_isSome_iff_eq_none] at hpre
    exfalso
    cases hinj : injectAll r.requisites s.kwargs with
    | mk e kw =>
      cases e with
      | none =>
        rw [add_of_absent_ok r id_ s ext kw hpre hinj] at h
        exact absurd h (by simp)
      | some e =>
        have he : e = PyError.attributeError := by
          rcases injectAll_err r.requisites s.kwargs with h' | h' <;>
            rw [hinj] at h'
          · exact Option.noConfusion h'
          · simpa using h'
        subst he
        rw [add_of_absent_err r id_ s ext _ kw hpre hinj] at h
        simp at h

/-- C9 witness: offering a second declaration under the taken id `"a"`
raises the duplicate error and leaves registry and declaration
untouched. -/
theorem add_duplicate_is_atomic_witness :
    (regWithA.add "a" stateA2 false).1 = some (PyError.duplicateState "a") ∧
    (regWithA.add "a" stateA2 false
        = (some (PyError.duplicateState "a"), regWithA, stateA2) ∧
      "a" = "a" ∧
      (lget (if false then regWithA.extends_ else regWithA.states) "a").isSome) :=
  ⟨rfl, add_duplicate_is_atomic regWithA "a" stateA2 false "a" rfl⟩

/-- C4: serializing a registry with no declarations, no extends and no
includes yields the empty document, and after any `salt_data` call the
registry is reset to the fresh empty state. -/
theorem serialize_empty_and_reset (r r2 : StateRegistry)
    (hs : r.states = []) (hi : r.includes = []) (he : r.extends_ = []) :
    (r.salt_data).1 = [] ∧ (r2.salt_data).2 = StateRegistry.empty := by
  constructor
  · simp [StateRegistry.salt_data, hs, hi, he]
  · rfl

/-- C4 witness: a registry whose only content is an active-scope stack
serializes to the empty document, and a non-empty registry is reset by
`salt_data`. -/
theorem serialize_empty_and_reset_witness :
    scopedReg.states = [] ∧ scopedReg.includes = [] ∧ scopedReg.extends_ = [] ∧
    ((scopedReg.salt_data).1 = [] ∧ (regWithA.salt_data).2 = StateRegistry.empty) :=
  ⟨rfl, rfl, rfl, serialize_empty_and_reset scopedReg regWithA rfl rfl rfl⟩

/-! ## Lemmas about attribute normalization and `State.attrs` -/

theorem keys_normalizeOne (kw : List (String × Val)) (attr : String) :
    (normalizeOne kw attr).map Prod.fst = kw.map Prod.fst := by
  unfold normalizeOne
  cases h : lget kw attr with
  | none => rfl
  | some v => exact keys_dictSet kw attr (normReqVal v) (by simp [h])

theorem keys_normFold (as : List String) (kw : List (String × Val)) :
    (as.foldl normalizeOne kw).map Prod.fst = kw.map Prod.fst := by
  induction as generalizing kw with
  | nil => rfl
  | cons a as ih => rw [List.foldl_cons, ih, keys_normalizeOne]

theorem lget_normalizeOne (kw : List (String × Val)) (attr k : String) :
    lget (normalizeOne kw attr) k =
      if k = attr then (lget kw k).map normReqVal else lget kw k := by
  unfold normalizeOne
  cases h : lget kw attr with
  | none =>
    by_cases hk : k = attr
    · subst hk
      simp [h]
    · rw [if_neg hk]
  | some v =>
    by_cases hk : k = attr
    · subst hk
      rw [if_pos rfl, lget_dictSet_self, h]
      rfl
    · rw [if_neg hk, lget_dictSet_ne _ _ hk]

theorem lget_normFold (as : List String) (kw : List (String × Val)) (k : String)
    (hnd : as.Nodup) :
    lget (as.foldl normalizeOne kw) k =
      if k ∈ as then (lget kw k).map normReqVal else lget kw k := by
  induction as generalizing kw with
  | nil => simp
  | cons a as ih =>
    obtain ⟨ha, hnd'⟩ := List.nodup_cons.mp hnd
    rw [List.foldl_cons, ih _ hnd']
    by_cases hk : k = a
    · subst hk
      rw [if_neg ha, lget_normalizeOne, if_pos rfl, if_pos (List.mem_cons_self _ _)]
    · rw [lget_normalizeOne, if_neg hk]
      by_cases hmem : k ∈ as
      · rw [if_pos hmem, if_pos (List.mem_cons_of_mem _ hmem)]
      · rw [if_neg hmem, if_neg (by simp [hk, hmem])]

theorem requisites_nodup : REQUISITES.Nodup := by decide

theorem lget_filterMap {α : Type} (g : String → Option α) (ks : List String)
    (k : String) :
    lget (ks.filterMap (fun x => (g x).map (fun v => (x, v)))) k =
      if k ∈ ks then g k else none := by
  induction ks with
  | nil => simp [lget]
  | cons a ks ih =>
    rw [List.filterMap_cons]
    cases hg : g a with
    | none =>
      rw [Option.map_none', ih]
      by_cases hk : k = a
      · subst hk
        by_cases hmem : k ∈ ks
        · rw [if_pos hmem, if_pos (List.mem_cons_self _ _)]
        · rw [if_neg hmem, if_pos (List.mem_cons_self _ _), hg]
      · by_cases hmem : k ∈ ks
        · rw [if_pos hmem, if_pos (List.mem_cons_of_mem _ hmem)]
        · rw [if_neg hmem, if_neg (by simp [hk, hmem])]
    | some v =>
      rw [Option.map_some']
      by_cases hk : a = k
      · subst hk
        unfold lget
        rw [if_pos rfl, if_pos (List.mem_cons_self _ _), hg]
      · unfold lget
        rw [if_neg hk, ih]
        by_cases hmem : k ∈ ks
        · rw [if_pos hmem, if_pos (List.mem_cons_of_mem _ hmem)]
        · rw [if_neg hmem,
            if_neg (by simp [hmem, show ¬k = a from fun h => hk h.symm])]

theorem keys_filterMap_total {α : Type} (g : String → Option α) (ks : List String)
    (h : ∀ k ∈ ks, (g k).isSome) :
    (ks.filterMap (fun x => (g x).map (fun v => (x, v)))).map Prod.fst = ks := by
  induction ks with
  | nil => rfl
  | cons a ks ih =>
    obtain ⟨v, hv⟩ := Option.isSome_iff_exists.mp (h a (List.mem_cons_self _ _))
    rw [List.filterMap_cons, hv, Option.map_some']
    simp only [List.map_cons]
    rw [ih (fun k hk => h k (List.mem_cons_of_mem _ hk))]

/-- Looking up a key in `State.attrs`: each key of the kwargs appears, relation
keys with their normalized values and all other keys unchanged. -/
theorem lget_attrs (s : State) (k : String) :
    lget s.attrs k =
      if k ∈ s.kwargs.map Prod.fst then
        (if k ∈ REQUISITES then (lget s.kwargs k).map normReqVal
         else lget s.kwargs k)
      else none := by
  unfold State.attrs
  rw [lget_filterMap, lget_normFold _ _ _ requisites_nodup]
  by_cases hmem : k ∈ s.kwargs.map Prod.fst
  · rw [if_pos hmem, if_pos (by
      rw [List.mem_insertionSort, keys_normFold]
      exact hmem)]
  · rw [if_neg hmem, if_neg (by
      rw [List.mem_insertionSort, keys_normFold]
      exact hmem)]

/-- C3: for a declaration attribute under a relation key, serialization
wraps a single non-sequence value into a one-element sequence, keeps a
sequence as-is, and replaces every `StateRequisite` element by its
serialized single-entry mapping `{namespace: target_id}` while leaving
raw elements (such as author-supplied mappings) untouched. -/
theorem serialized_relation_value_normalization (s : State) (k : String) (v : Val)
    (hk : k ∈ REQUISITES) (hv : lget s.kwargs k = some v) :
    lget s.attrs k = some (Val.list
      ((match v with | Val.list l => l | v => [v]).map
        (fun e => match e with
          | Val.req q => Val.dict [(q.module, Val.str q.id_)]
          | e => e))) := by
  have h1 : lget s.attrs k = some (normReqVal v) := by
    rw [lget_attrs, if_pos (by rw [← lget_isSome_iff, hv]; rfl), if_pos hk, hv]
    rfl
  rw [h1]
  have h2 : ∀ w : Val, normElem w =
      (fun e => match e with
        | Val.req q => Val.dict [(q.module, Val.str q.id_)]
        | e => e) w := by
    intro w
    cases w <;> rfl
  cases v <;> simp only [normReqVal, h2] <;> rfl

/-- The keys of `State.attrs` are exactly the kwargs keys, sorted. -/
theorem attrs_keys (s : State) :
    s.attrs.map Prod.fst = (s.kwargs.map Prod.fst).insertionSort (· ≤ ·) := by
  simp only [State.attrs]
  rw [keys_filterMap_total _ _ (fun k hk => by
        rw [List.mem_insertionSort, keys_normFold] at hk
        rw [lget_isSome_iff, keys_normFold]
        exact hk),
    keys_normFold]

/-- C8: serialized attributes come out sorted by attribute key in
ascending order, their keys are exactly the declaration's attribute
keys, and the result is independent of the insertion order of the
attributes. -/
theorem serialized_attrs_sorted (s : State) (kw2 : List (String × Val))
    (hperm : s.kwargs.Perm kw2) (hnd : (s.kwargs.map Prod.fst).Nodup) :
    (s.attrs.map Prod.fst).Sorted (· ≤ ·) ∧
    s.attrs.map Prod.fst = (s.kwargs.map Prod.fst).insertionSort (· ≤ ·) ∧
    State.attrs { s with kwargs := kw2 } = s.attrs := by
  refine ⟨?_, attrs_keys s, ?_⟩
  · rw [attrs_keys]
    exact List.sorted_insertionSort _ _
  · have hks : (kw2.map Prod.fst).insertionSort (· ≤ ·) =
        ((s.kwargs.map Prod.fst).insertionSort (· ≤ ·)) := by
      exact @List.eq_of_perm_of_sorted String (· ≤ ·) _ _ _
        (((List.perm_insertionSort _ _).trans ((hperm.map _).symm)).trans
          (List.perm_insertionSort _ _).symm)
        (List.sorted_insertionSort _ _) (List.sorted_insertionSort _ _)
    have hlget : (fun k => (lget (REQUISITES.foldl normalizeOne kw2) k).map
          (fun v => (k, v))) =
        (fun k => (lget (REQUISITES.foldl normalizeOne s.kwargs) k).map
          (fun v => (k, v))) := by
      funext x
      rw [lget_normFold _ _ _ requisites_nodup,
        lget_normFold _ _ _ requisites_nodup,
        lget_eq_of_perm hperm hnd x]
    simp only [State.attrs]
    rw [keys_normFold, keys_normFold, hks, hlget]

/-- C8 witness: the two insertion orders of the attributes `owner` and
`group` serialize identically, with keys in ascending order. -/
theorem serialized_attrs_sorted_witness :
    stateZ.kwargs.Perm kwGO ∧
    (stateZ.kwargs.map Prod.fst).Nodup ∧
    ((stateZ.attrs.map Prod.fst).Sorted (· ≤ ·) ∧
     stateZ.attrs.map Prod.fst = (stateZ.kwargs.map Prod.fst).insertionSort (· ≤ ·) ∧
     State.attrs { stateZ with kwargs := kwGO } = stateZ.attrs) :=
  ⟨List.Perm.swap _ _ [], by decide,
    serialized_attrs_sorted stateZ kwGO (List.Perm.swap _ _ []) (by decide)⟩

/-- C3 witness: a single unwrapped `StateRequisite` under `require` is
serialized as a one-element list holding its edge-record. -/
theorem serialized_relation_value_normalization_witness :
    ("require" ∈ REQUISITES) ∧
    lget stateY.kwargs "require" = some (Val.req scopeQ1) ∧
    lget stateY.attrs "require" = some (Val.list
      ((match Val.req scopeQ1 with | Val.list l => l | v => [v]).map
        (fun e => match e with
          | Val.req q => Val.dict [(q.module, Val.str q.id_)]
          | e => e))) :=
  ⟨by decide, rfl,
    serialized_relation_value_normalization stateY "require" (Val.req scopeQ1)
      (by decide) rfl⟩

/-! ## Lemmas about `salt_data` -/

theorem dictSet_ne_nil {α : Type} (kw : List (String × α)) (k : String) (v : α) :
    dictSet kw k v ≠ [] := by
  cases kw with
  | nil => simp [dictSet]
  | cons p rest =>
    obtain ⟨k', v'⟩ := p
    by_cases h : k' = k <;> simp [dictSet, h]

theorem salt_data_states (r : StateRegistry) (hi : r.includes = [])
    (he : r.extends_ = []) :
    (r.salt_data).1 = r.states.map fun p => (p.1, p.2.call) := by
  simp [StateRegistry.salt_data, hi, he]

theorem salt_data_extend_lget (r : StateRegistry) (hne : r.extends_ ≠ []) :
    lget (r.salt_data).1 "extend" =
      some (Val.dict (r.extends_.map fun p => (p.1, p.2.call))) := by
  simp only [StateRegistry.salt_data]
  rw [if_neg (by simp [hne])]
  exact lget_dictSet_self _ _ _

theorem salt_data_include_lget (r : StateRegistry) (hne : r.includes ≠ []) :
    lget (r.salt_data).1 "include" = some (Val.list (r.includes.map Val.str)) := by
  simp only [StateRegistry.salt_data]
  by_cases he : r.extends_.isEmpty
  · rw [if_pos he, if_neg (by simp [hne])]
    exact lget_dictSet_self _ _ _
  · rw [if_neg he, lget_dictSet_ne _ _ (by decide), if_neg (by simp [hne])]
    exact lget_dictSet_self _ _ _

/-! ## Lemmas about `registerAll` -/

theorem registerAll_states (ss : List State) (r : StateRegistry)
    (hreq : r.requisites = [])
    (hdisj : ∀ s ∈ ss, lget r.states s.id_ = none)
    (hnd : (ss.map State.id_).Nodup) :
    registerAll false r ss =
      (none, { r with states := r.states ++ ss.map fun s => (s.id_, s) }) := by
  induction ss generalizing r with
  | nil => simp [registerAll]
  | cons s rest ih =>
    have hnd1 : s.id_ ∉ rest.map State.id_ ∧ (rest.map State.id_).Nodup := by
      rw [List.map_cons, List.nodup_cons] at hnd
      exact hnd
    obtain ⟨hs, hnd'⟩ := hnd1
    have hargs := hdisj s (List.mem_cons_self _ _)
    have hadd : r.add s.id_ s false =
        (none, { r with states := dictSet r.states s.id_ s }, s) :=
      add_of_absent_ok r s.id_ s false s.kwargs (by simpa using hargs)
        (by rw [hreq]; rfl)
    unfold registerAll
    rw [hadd]
    dsimp only
    have hset : dictSet r.states s.id_ s = r.states ++ [(s.id_, s)] :=
      dictSet_absent r.states s.id_ s hargs
    have hdisj2 : ∀ t ∈ rest, lget (dictSet r.states s.id_ s) t.id_ = none := by
      intro t ht
      rw [hset, lget_append_of_none _ (hdisj t (List.mem_cons_of_mem _ ht))]
      have hne : s.id_ ≠ t.id_ := fun hh =>
        hs (hh ▸ List.mem_map.mpr ⟨t, ht, rfl⟩)
      simp [lget, hne]
    rw [ih { r with states := dictSet r.states s.id_ s } hreq hdisj2 hnd']
    rw [hset]
    simp

theorem registerAll_extends (ss : List State) (r : StateRegistry)
    (hreq : r.requisites = [])
    (hdisj : ∀ s ∈ ss, lget r.extends_ s.id_ = none)
    (hnd : (ss.map State.id_).Nodup) :
    registerAll true r ss =
      (none, { r with extends_ := r.extends_ ++ ss.map fun s => (s.id_, s) }) := by
  induction ss generalizing r with
  | nil => simp [registerAll]
  | cons s rest ih =>
    have hnd1 : s.id_ ∉ rest.map State.id_ ∧ (rest.map State.id_).Nodup := by
      rw [List.map_cons, List.nodup_cons] at hnd
      exact hnd
    obtain ⟨hs, hnd'⟩ := hnd1
    have hargs := hdisj s (List.mem_cons_self _ _)
    have hadd : r.add s.id_ s true =
        (none, { r with extends_ := dictSet r.extends_ s.id_ s }, s) :=
      add_of_absent_ok r s.id_ s true s.kwargs (by simpa using hargs)
        (by rw [hreq]; rfl)
    unfold registerAll
    rw [hadd]
    dsimp only
    have hset : dictSet r.extends_ s.id_ s = r.extends_ ++ [(s.id_, s)] :=
      dictSet_absent r.extends_ s.id_ s hargs
    have hdisj2 : ∀ t ∈ rest, lget (dictSet r.extends_ s.id_ s) t.id_ = none := by
      intro t ht
      rw [hset, lget_append_of_none _ (hdisj t (List.mem_cons_of_mem _ ht))]
      have hne : s.id_ ≠ t.id_ := fun hh =>
        hs (hh ▸ List.mem_map.mpr ⟨t, ht, rfl⟩)
      simp [lget, hne]
    rw [ih { r with extends_ := dictSet r.extends_ s.id_ s } hreq hdisj2 hnd']
    rw [hset]
    simp

/-- C5: registering sequences of distinct ids into a section and
serializing lists the ids in exactly their insertion order — at top
level for the normal section, under the `extend` key for the extend
section — and maps each id to `{"<module>.<func>": serialized attrs}`. -/
theorem serialize_insertion_order (ss ts : List State)
    (hnd : (ss.map State.id_).Nodup) (hnd2 : (ts.map State.id_).Nodup)
    (hts : ts ≠ []) :
    (registerAll false StateRegistry.empty ss).1 = none ∧
    ((registerAll false StateRegistry.empty ss).2.salt_data).1 =
      ss.map (fun s => (s.id_, Val.dict [(s.module ++ "." ++ s.func,
        Val.list (s.attrs.map fun p => Val.dict [p]))])) ∧
    (registerAll true StateRegistry.empty ts).1 = none ∧
    lget ((registerAll true StateRegistry.empty ts).2.salt_data).1 "extend" =
      some (Val.dict (ts.map (fun s => (s.id_, Val.dict [(s.module ++ "." ++ s.func,
        Val.list (s.attrs.map fun p => Val.dict [p]))])))) := by
  have h1 := registerAll_states ss StateRegistry.empty rfl (fun s _ => rfl) hnd
  have h2 := registerAll_extends ts StateRegistry.empty rfl (fun s _ => rfl) hnd2
  rw [h1, h2]
  refine ⟨rfl, ?_, rfl, ?_⟩
  · rw [salt_data_states _ rfl rfl]
    simp [StateRegistry.empty, State.call, State.full_func, Function.comp]
  · rw [salt_data_extend_lget _ (by
      simp only [StateRegistry.empty, List.nil_append]
      intro hc
      exact hts (List.map_eq_nil_iff.mp hc))]
    simp [StateRegistry.empty, State.call, State.full_func, Function.comp]

/-- C5 witness: ids `"a"`, `"z"` into the normal section and `"a"` into
the extend section serialize in insertion order. -/
theorem serialize_insertion_order_witness :
    (([stateA, stateZ].map State.id_).Nodup) ∧
    (([stateA2].map State.id_).Nodup) ∧
    ([stateA2] ≠ ([] : List State)) ∧
    ((registerAll false StateRegistry.empty [stateA, stateZ]).1 = none ∧
     ((registerAll false StateRegistry.empty [stateA, stateZ]).2.salt_data).1 =
       [stateA, stateZ].map (fun s => (s.id_, Val.dict [(s.module ++ "." ++ s.func,
         Val.list (s.attrs.map fun p => Val.dict [p]))])) ∧
     (registerAll true StateRegistry.empty [stateA2]).1 = none ∧
     lget ((registerAll true StateRegistry.empty [stateA2]).2.salt_data).1 "extend" =
       some (Val.dict ([stateA2].map (fun s => (s.id_, Val.dict
         [(s.module ++ "." ++ s.func,
           Val.list (s.attrs.map fun p => Val.dict [p]))]))))) :=
  ⟨by decide, by decide, by simp,
    serialize_insertion_order [stateA, stateZ] [stateA2]
      (by decide) (by decide) (by simp)⟩

/-- C6: attribute-style factory invocation raises the
invalid-operation error exactly when the whitelist is non-empty and the
operation is not a member; otherwise (on a fresh id) it registers and
returns a new declaration carrying the factory's module. -/
theorem factory_operation_whitelist (f : StateFactory) (func id_ : String)
    (kwargs : List (String × Val)) (r : StateRegistry)
    (hid : lget r.states id_ = none)
    (hinj : (injectAll r.requisites kwargs).1 = none) :
    ((f.callFunc func (StateId.plain id_) kwargs r).1
        = some (PyError.invalidFunction func f.module)
      ↔ f.valid_funcs ≠ [] ∧ func ∉ f.valid_funcs) ∧
    (f.valid_funcs = [] ∨ func ∈ f.valid_funcs →
      ∃ r' s, f.callFunc func (StateId.plain id_) kwargs r = (none, r', some s) ∧
        s.id_ = id_ ∧ s.module = f.module ∧ s.func = func ∧
        lget r'.states id_ = some s) := by
  by_cases hc : f.valid_funcs.length > 0 ∧ func ∉ f.valid_funcs
  · have hg : f.getattr_check func =
        some (PyError.invalidFunction func f.module) := by
      unfold StateFactory.getattr_check
      rw [if_pos hc]
    have hcall : f.callFunc func (StateId.plain id_) kwargs r =
        (some (PyError.invalidFunction func f.module), r, none) := by
      unfold StateFactory.callFunc
      rw [hg]
    rw [hcall]
    constructor
    · refine ⟨fun _ => ⟨?_, hc.2⟩, fun _ => rfl⟩
      intro he
      rw [he] at hc
      simp at hc
    · intro hok
      exfalso
      rcases hok with he | hm
      · rw [he] at hc
        simp at hc
      · exact hc.2 hm
  · have hg : f.getattr_check func = none := by
      unfold StateFactory.getattr_check
      rw [if_neg hc]
    obtain ⟨kw', hinj'⟩ : ∃ kw', injectAll r.requisites kwargs = (none, kw') := by
      cases hi : injectAll r.requisites kwargs with
      | mk e kw =>
        rw [hi] at hinj
        cases e with
        | none => exact ⟨kw, rfl⟩
        | some e => exact Option.noConfusion hinj
    have hadd : r.add id_
        ({ id_ := id_, module := f.module, func := func, kwargs := kwargs } : State)
        false =
        (none,
         { r with
            states := dictSet r.states id_
                ({ id_ := id_, module := f.module, func := func, kwargs := kw' } : State) },
         { id_ := id_, module := f.module, func := func, kwargs := kw' }) :=
      add_of_absent_ok r id_
        { id_ := id_, module := f.module, func := func, kwargs := kwargs } false kw'
        (by simpa using hid) hinj'
    have hcall : f.callFunc func (StateId.plain id_) kwargs r =
        (none,
         { r with
            states := dictSet r.states id_
                ({ id_ := id_, module := f.module, func := func, kwargs := kw' } : State) },
         some { id_ := id_, module := f.module, func := func, kwargs := kw' }) := by
      unfold StateFactory.callFunc State.register
      rw [hg]
      dsimp only
      rw [hadd]
    rw [hcall]
    constructor
    · refine ⟨fun h => absurd h (by simp), fun hrc => ?_⟩
      exact absurd ⟨List.length_pos.mpr hrc.1, hrc.2⟩ hc
    · intro _
      exact ⟨_, _, rfl, rfl, rfl, rfl, lget_dictSet_self _ _ _⟩

/-- C6 witness: `file.managed` passes the whitelist and registers a
declaration in the `file` module; the error condition is decidably
false. -/
theorem factory_operation_whitelist_witness :
    lget StateRegistry.empty.states "f1" = none ∧
    (injectAll StateRegistry.empty.requisites []).1 = none ∧
    (((fileFactory.callFunc "managed" (StateId.plain "f1") []
          StateRegistry.empty).1
        = some (PyError.invalidFunction "managed" fileFactory.module)
      ↔ fileFactory.valid_funcs ≠ [] ∧ "managed" ∉ fileFactory.valid_funcs) ∧
     (fileFactory.valid_funcs = [] ∨ "managed" ∈ fileFactory.valid_funcs →
      ∃ r' s, fileFactory.callFunc "managed" (StateId.plain "f1") []
          StateRegistry.empty = (none, r', some s) ∧
        s.id_ = "f1" ∧ s.module = fileFactory.module ∧ s.func = "managed" ∧
        lget r'.states "f1" = some s)) :=
  ⟨rfl, rfl,
    factory_operation_whitelist fileFactory "managed" "f1" []
      StateRegistry.empty rfl rfl⟩

/-- C7: a declaration whose id is an `StateExtend` marker registers
into the extend section under the marker's unwrapped name, its own id
becomes that name, the normal section is untouched, and serialization
emits the (now non-empty) extend section under a top-level `extend`
key. -/
theorem extend_marker_registration (r : StateRegistry) (m : StateExtend)
    (module func : String) (kwargs : List (String × Val))
    (hid : lget r.extends_ m.name = none)
    (hinj : (injectAll r.requisites kwargs).1 = none) :
    ∃ r' s, State.register (StateId.ext m) module func kwargs r = (none, r', s) ∧
      s.id_ = m.name ∧
      lget r'.extends_ m.name = some s ∧
      r'.states = r.states ∧
      r'.extends_ ≠ [] ∧
      lget (r'.salt_data).1 "extend" =
        some (Val.dict (r'.extends_.map fun p => (p.1, p.2.call))) := by
  obtain ⟨kw', hinj'⟩ : ∃ kw', injectAll r.requisites kwargs = (none, kw') := by
    cases hi : injectAll r.requisites kwargs with
    | mk e kw =>
      rw [hi] at hinj
      cases e with
      | none => exact ⟨kw, rfl⟩
      | some e => exact Option.noConfusion hinj
  have hadd : r.add m.name
      ({ id_ := m.name, module := module, func := func, kwargs := kwargs } : State)
      true =
      (none,
       { r with
          extends_ := dictSet r.extends_ m.name
              ({ id_ := m.name, module := module, func := func, kwargs := kw' } : State) },
       { id_ := m.name, module := module, func := func, kwargs := kw' }) :=
    add_of_absent_ok r m.name
      { id_ := m.name, module := module, func := func, kwargs := kwargs } true kw'
      (by simpa using hid) hinj'
  have hreg : State.register (StateId.ext m) module func kwargs r =
      (none,
       { r with
          extends_ := dictSet r.extends_ m.name
              ({ id_ := m.name, module := module, func := func, kwargs := kw' } : State) },
       { id_ := m.name, module := module, func := func, kwargs := kw' }) := by
    unfold State.register StateRegistry.extend_
    dsimp only
    rw [hadd]
  refine ⟨_, _, hreg, rfl, lget_dictSet_self _ _ _, rfl, dictSet_ne_nil _ _ _, ?_⟩
  exact salt_data_extend_lget _ (dictSet_ne_nil _ _ _)

/-- C7 witness: `extend("apache")` used as the id of a
`service.running` declaration lands in the extend section and is
serialized under the `extend` key. -/
theorem extend_marker_registration_witness :
    lget StateRegistry.empty.extends_ extM.name = none ∧
    (injectAll StateRegistry.empty.requisites []).1 = none ∧
    ∃ r' s, State.register (StateId.ext extM) "service" "running" []
        StateRegistry.empty = (none, r', s) ∧
      s.id_ = extM.name ∧
      lget r'.extends_ extM.name = some s ∧
      r'.states = StateRegistry.empty.states ∧
      r'.extends_ ≠ [] ∧
      lget (r'.salt_data).1 "extend" =
        some (Val.dict (r'.extends_.map fun p => (p.1, p.2.call))) :=
  ⟨rfl, rfl,
    extend_marker_registration StateRegistry.empty extM "service" "running" []
      rfl rfl⟩

/-- C10: when includes and the extend section are non-empty, the
serialized document holds the include list under the literal key
`include` and the serialized extend section under the literal key
`extend`, inside the same mapping that holds declaration ids — and
under those keys the payload is never any declaration's serialization
(a declaration registered under either literal id is silently
overwritten). -/
theorem document_reserved_keys (r : StateRegistry)
    (hinc : r.includes ≠ []) (hext : r.extends_ ≠ []) :
    lget (r.salt_data).1 "include" = some (Val.list (r.includes.map Val.str)) ∧
    lget (r.salt_data).1 "extend" =
      some (Val.dict (r.extends_.map fun p => (p.1, p.2.call))) ∧
    (∀ s : State, lget (r.salt_data).1 "include" ≠ some (State.call s)) ∧
    (∀ s : State, lget (r.salt_data).1 "extend" ≠ some (State.call s)) := by
  refine ⟨salt_data_include_lget r hinc, salt_data_extend_lget r hext, ?_, ?_⟩
  · intro s h
    rw [salt_data_include_lget r hinc] at h
    simp [State.call] at h
  · intro s h
    rw [salt_data_extend_lget r hext] at h
    obtain ⟨p, rest, hE⟩ := List.exists_cons_of_ne_nil hext
    rw [hE] at h
    simp [State.call] at h

/-- C10 witness: a registry with a declaration registered under the id
`"include"`, a non-empty include list and a non-empty extend section;
the document's `include`/`extend` keys hold the reserved payloads, not
the declarations' serializations. -/
theorem document_reserved_keys_witness :
    regFull.includes ≠ [] ∧ regFull.extends_ ≠ [] ∧
    (lget (regFull.salt_data).1 "include"
        = some (Val.list (regFull.includes.map Val.str)) ∧
     lget (regFull.salt_data).1 "extend"
        = some (Val.dict (regFull.extends_.map fun p => (p.1, p.2.call))) ∧
     lget (regFull.salt_data).1 "include" ≠ some (State.call stateA) ∧
     lget (regFull.salt_data).1 "extend" ≠ some (State.call stateA2)) := by
  have h := document_reserved_keys regFull (by decide) (by simp [regFull])
  exact ⟨by decide, by simp [regFull], h.1, h.2.1, h.2.2.1 stateA, h.2.2.2 stateA2⟩

end Pyobjects
